import Mathlib

/-!
Shallow embedding of the buffer-optimize command-log compactor.

The definitions below translate the C sources: cmdhash.c together with its
header (the two-family aggregation engine), zhash.c with zhash.h (the
numeric-only predecessor), the append-only output buffer from buffer.c and
buffer.h, and the pipeline driver in buffer-optimize.c.  Byte strings are
modelled as lists of byte values; the accumulated double score is idealized
as a rational number, which is the standard idealization for claims stated
up to floating-point rounding.
-/

namespace BufferOptimize

/-- Byte strings: each element is one byte value. -/
abbrev Bytes := List Nat

/-- The djb2 string hash from cmdhash.c and zhash.c: hash starts at 5381 and
accumulates hash * 33 + byte in an unsigned 64-bit accumulator. -/
def djb2 (s : Bytes) : Nat :=
  s.foldl (fun h c => (h * 33 + c) % (2 ^ 64)) 5381

/-- GET_BUCKET from the source: the djb2 value is returned through a 32-bit int
(truncation to the low 32 bits, then conversion to unsigned for the modulo)
and reduced modulo the bucket-array size. -/
def GET_BUCKET (s : Bytes) (size : Nat) : Nat :=
  (djb2 s % (2 ^ 32)) % size

/-- ASCII tolower as used by strncasecmp on byte values. -/
def tolowerByte (c : Nat) : Nat :=
  if 65 ≤ c ∧ c ≤ 90 then c + 32 else c

/-- Equality test corresponding to strncmp(a, b, n) == 0 where n is the
length of both buffers and each buffer carries a NUL terminator after its
bytes.  The comparison stops early, reporting equality, at the first zero
byte common to both sides, exactly as strncmp does. -/
def strncmpEq : Bytes → Bytes → Bool
  | [], [] => true
  | [], b :: _ => b == 0
  | a :: _, [] => a == 0
  | a :: as, b :: bs => a == b && (a == 0 || strncmpEq as bs)

/-- Equality test corresponding to strncasecmp(buf, word, n) == 0 where the
third argument counts how many bytes may be inspected.  The end of each list
stands for the NUL terminator that follows the stored bytes in memory. -/
def strncasecmpEq : Bytes → Bytes → Nat → Bool
  | _, _, 0 => true
  | [], [], _ + 1 => true
  | [], b :: _, _ + 1 => b == 0
  | a :: _, [], _ + 1 => a == 0
  | a :: as, b :: bs, n + 1 =>
      tolowerByte a == tolowerByte b && (a == 0 || strncasecmpEq as bs n)

/-- The bytes of the CMD_ZINCRBY literal. -/
def CMD_ZINCRBY : Bytes := [90, 73, 78, 67, 82, 66, 89]

/-- The bytes of the CMD_SADD literal. -/
def CMD_SADD : Bytes := [83, 65, 68, 68]

/-- One element of a parsed command, as hiredis delivers it: a bulk string
or an integer. -/
inductive replyElem where
  | str (b : Bytes)
  | int (i : Int)
deriving DecidableEq

/-- The byte content of an element.  For an integer element the C str field
is a null pointer, never dereferenced by the code paths modelled here; it is
rendered as the empty byte string. -/
def replyElem.bytes : replyElem → Bytes
  | .str b => b
  | .int _ => []

/-- A parsed command: the ordered elements plus the integer field of the
top-level reply object, which hiredis leaves at zero for array replies. -/
structure redisReply where
  element : List replyElem
  integer : Int
deriving DecidableEq

/-- Element i of a reply as a byte string. -/
def replyArg (r : redisReply) (i : Nat) : Bytes :=
  (r.element.getD i (.str [])).bytes

/-- The cmdType enumeration from cmdhash.h. -/
inductive cmdType where
  | TYPE_ZINCRBY
  | TYPE_SADD
  | TYPE_UNSUPPORTED
deriving DecidableEq

/-- The integer value each enumerator has in C. -/
def cmdType.code : cmdType → Int
  | .TYPE_ZINCRBY => 0
  | .TYPE_SADD => 1
  | .TYPE_UNSUPPORTED => 2

/-- The classifier from cmdhash.c: four elements whose first element compares
equal to CMD_ZINCRBY under strncasecmp with n = 8 give TYPE_ZINCRBY; more
than two elements with a first element comparing equal to CMD_SADD under
strncasecmp with n = 5 give TYPE_SADD; everything else is unsupported. -/
def __get_type (r : redisReply) : cmdType :=
  if r.element.length == 4 && strncasecmpEq (replyArg r 0) CMD_ZINCRBY 8 then
    .TYPE_ZINCRBY
  else if decide (r.element.length > 2) && strncasecmpEq (replyArg r 0) CMD_SADD 5 then
    .TYPE_SADD
  else
    .TYPE_UNSUPPORTED

/-- One member entry of the two-family engine.  The C struct stores the
member bytes with their length and a union of a double score with an
unsigned hit counter; the score is idealized as a rational and the union is
split into two fields, since the bit-level aliasing of the two union views
is not representable over exact rationals.  The z family reads only the
score and the s family reads only the hit counter. -/
structure cmdMemberList where
  member : Bytes
  score : ℚ
  hits : Nat
deriving DecidableEq

/-- One key entry: the key bytes, the member count for this key, and the
member bucket array, which stays a null pointer until the first member
arrives. -/
structure cmdKeyList where
  key : Bytes
  count : Nat
  bucket : Option (List (List cmdMemberList))
deriving DecidableEq

/-- One command family container: the configured bucket sizes, the running
key, member and string-length totals, and the outer bucket array. -/
structure cmdHashContainer where
  ksize : Nat
  msize : Nat
  keys : Nat
  members : Nat
  str_len : Nat
  bucket : List (List cmdKeyList)
deriving DecidableEq

/-- A freshly created container as built by container creation: zeroed
counters and an outer bucket array of ksize empty chains. -/
def containerInit (ksize msize : Nat) : cmdHashContainer :=
  { ksize := ksize, msize := msize, keys := 0, members := 0, str_len := 0,
    bucket := List.replicate ksize [] }

/-- A zeroed member entry as calloc produces it, with the member bytes
copied in. -/
def freshMember (m : Bytes) : cmdMemberList :=
  { member := m, score := 0, hits := 0 }

/-- A zeroed key entry as calloc produces it, with the key bytes copied in.
Its member bucket array is still the null pointer. -/
def freshKey (k : Bytes) : cmdKeyList :=
  { key := k, count := 0, bucket := none }

/-- The member-chain walk inside the find-or-create member routine.  A match
compares the probe length against the stored length and then the bytes via
strncmp; on a hit the stored entry gets its hit counter incremented and then
the caller's update (the score accumulation for the z family, nothing for
the s family).  A miss appends a zeroed entry, to which the caller's update
also applies because the caller mutates the returned entry.  The boolean
reports whether a new entry was created. -/
def chainFindMember (m : Bytes) (upd : cmdMemberList → cmdMemberList) :
    List cmdMemberList → List cmdMemberList × Bool
  | [] => ([upd (freshMember m)], true)
  | e :: rest =>
      if e.member.length == m.length && strncmpEq m e.member then
        (upd { e with hits := e.hits + 1 } :: rest, false)
      else
        let p := chainFindMember m upd rest
        (e :: p.1, p.2)

/-- The find-or-create member routine at the key-entry level: the member
bucket array is allocated on first use, the probe is hashed to a bucket, the
chain is walked, and the key member count grows when an entry is created. -/
def __find_member (msize : Nat) (k : cmdKeyList) (m : Bytes)
    (upd : cmdMemberList → cmdMemberList) : cmdKeyList × Bool :=
  let buckets := k.bucket.getD (List.replicate msize [])
  let num := GET_BUCKET m msize
  let p := chainFindMember m upd (buckets.getD num [])
  ({ k with bucket := some (buckets.set num p.1),
            count := k.count + (if p.2 then 1 else 0) }, p.2)

/-- The key-chain walk inside the find-or-create key routine.  A match
compares lengths and then the bytes with strncmp; a miss appends a zeroed
key entry at the chain tail.  Returns the new chain, the position of the
entry, and whether it was created. -/
def chainFindKey (k : Bytes) : List cmdKeyList → List cmdKeyList × Nat × Bool
  | [] => ([freshKey k], 0, true)
  | e :: rest =>
      if e.key.length == k.length && strncmpEq e.key k then
        (e :: rest, 0, false)
      else
        let p := chainFindKey k rest
        (e :: p.1, p.2.1 + 1, p.2.2)

/-- The find-or-create key routine: hash the key to an outer bucket, walk the
chain, bump the key counter when an entry is created.  Returns the updated
container together with the bucket index and chain position of the entry,
which stay valid while members are added under it. -/
def __find_key (c : cmdHashContainer) (k : Bytes) :
    cmdHashContainer × Nat × Nat :=
  let num := GET_BUCKET k c.ksize
  let p := chainFindKey k (c.bucket.getD num [])
  ({ c with bucket := c.bucket.set num p.1,
            keys := c.keys + (if p.2.2 then 1 else 0) }, num, p.2.1)

/-- Add one member under the key entry located at outer bucket bi, chain
position ci, applying the caller's member update, and roll the member
creation into the container's member and string-length totals. -/
def containerAddMember (c : cmdHashContainer) (bi ci : Nat) (m : Bytes)
    (upd : cmdMemberList → cmdMemberList) : cmdHashContainer :=
  let chain := c.bucket.getD bi []
  match chain.get? ci with
  | none => c
  | some ke =>
      let p := __find_member c.msize ke m upd
      { c with bucket := c.bucket.set bi (chain.set ci p.1),
               members := c.members + (if p.2 then 1 else 0),
               str_len := c.str_len + (if p.2 then m.length else 0) }

/-- The ZINCRBY aggregation step: find or create the key, find or create the
member, and accumulate the delta into its score.  The hit-counter increment
that the shared member walk performs on repeat finds is kept. -/
def __hash_zincrby_cmd (c : cmdHashContainer) (k : Bytes) (d : ℚ)
    (m : Bytes) : cmdHashContainer :=
  let p := __find_key c k
  containerAddMember p.1 p.2.1 p.2.2 m (fun e => { e with score := e.score + d })

/-- The SADD aggregation step: find or create the key once, then find or
create every member listed by the command under that same key entry. -/
def __hash_sadd_cmd (c : cmdHashContainer) (k : Bytes) (ms : List Bytes) :
    cmdHashContainer :=
  let p := __find_key c k
  ms.foldl (fun c m => containerAddMember c p.2.1 p.2.2 m id) p.1

/-- The engine object: the SADD container, the ZINCRBY container and the
internal serialization buffer, which starts as a null pointer. -/
structure cmdHash where
  s_cmds : cmdHashContainer
  z_cmds : cmdHashContainer
  _buf : Option Bytes
deriving DecidableEq

/-- A freshly created engine, as cmdHashCreate builds it for positive bucket
sizes. -/
def cmdHashInit (ksize msize : Nat) : cmdHash :=
  { s_cmds := containerInit ksize msize,
    z_cmds := containerInit ksize msize,
    _buf := none }

/-- cmdHashCreate itself: bucket sizes below one are refused with a null
result. -/
def cmdHashCreate (ksize msize : Nat) : Option cmdHash :=
  if ksize < 1 || msize < 1 then none else some (cmdHashInit ksize msize)

/-- Models C strtod restricted to the shapes this program feeds it: optional
leading blanks, an optional sign, decimal digits, an optional fraction.
Exponents, hexadecimal, infinities and NaNs are not modelled.  When no
digits can be converted the result is zero, exactly as strtod reports no
conversion, and trailing garbage after the converted digits is ignored
because the callers pass a null end pointer. -/
def digitsVal (s : Bytes) : Nat :=
  s.foldl (fun a c => a * 10 + (c - 48)) 0

def isDigitByte (c : Nat) : Bool := 48 ≤ c && c ≤ 57

def parseUnsignedDec (s : Bytes) : ℚ :=
  let ip := s.takeWhile isDigitByte
  let rest := s.drop ip.length
  let intPart : ℚ := (digitsVal ip : ℚ)
  match rest with
  | 46 :: fracRaw =>
      let fp := fracRaw.takeWhile isDigitByte
      intPart + (digitsVal fp : ℚ) / ((10 : ℚ) ^ fp.length)
  | _ => intPart

def strtod (s : Bytes) : ℚ :=
  let s := s.dropWhile (fun c => c == 32 || (9 ≤ c && c ≤ 13))
  match s with
  | 45 :: rest => -(parseUnsignedDec rest)
  | 43 :: rest => parseUnsignedDec rest
  | _ => parseUnsignedDec s

/-- cmdHashAdd: classify the command and dispatch.  A supported command is
aggregated and the C function reports zero; an unsupported command reports
the TYPE_UNSUPPORTED enumerator, whose integer value is two.  The minus-one
allocation-failure path cannot occur in this idealization, which assumes
every allocation succeeds; the variant with an allocation oracle is defined
separately below. -/
def cmdHashAdd (ht : cmdHash) (r : redisReply) : Int × cmdHash :=
  match __get_type r with
  | .TYPE_ZINCRBY =>
      (0, { ht with z_cmds := __hash_zincrby_cmd ht.z_cmds (replyArg r 1)
                                (strtod (replyArg r 2)) (replyArg r 3) })
  | .TYPE_SADD =>
      (0, { ht with s_cmds := __hash_sadd_cmd ht.s_cmds (replyArg r 1)
                                ((r.element.drop 2).map replyElem.bytes) })
  | .TYPE_UNSUPPORTED => (cmdType.code .TYPE_UNSUPPORTED, ht)

/-- Decimal digit rendering of a natural number, with explicit fuel so that
the recursion is structural. -/
def natDigitsCore : Nat → Nat → Bytes → Bytes
  | 0, _, acc => acc
  | fuel + 1, n, acc =>
      if n < 10 then (48 + n) :: acc
      else natDigitsCore fuel (n / 10) ((48 + n % 10) :: acc)

def natDigits (n : Nat) : Bytes := natDigitsCore (n + 1) n []

/-- Decimal rendering of an integer, as the lld conversion prints it. -/
def intDigits (i : Int) : Bytes :=
  if i < 0 then 45 :: natDigits i.natAbs else natDigits i.natAbs

/-- One bulk string of the wire format, its length written first: the dollar byte, the
decimal length, CRLF, the payload, CRLF. -/
def encodeBulk (b : Bytes) : Bytes :=
  36 :: natDigits b.length ++ [13, 10] ++ b ++ [13, 10]

/-- The array-of-bulk-strings encoding hiredis produces: a star byte with
the element count, CRLF, then each element as a bulk string.  The element
count written in the header is passed separately because the SADD flush
derives it from the stored member count rather than from the argument
vector it assembled. -/
def encodeCmdArgv (n : Nat) (args : List Bytes) : Bytes :=
  42 :: natDigits n ++ [13, 10] ++ (args.map encodeBulk).flatten

/-- The percent-f rendering of the accumulated score, idealized over the
rational value: six fractional digits, round to nearest.  The sign handling
of values that round to zero from below is immaterial to every claim. -/
def formatDouble (q : ℚ) : Bytes :=
  let n : Int := round (q * 1000000)
  let v : Nat := n.natAbs
  let frac := natDigits (v % 1000000)
  let digits :=
    natDigits (v / 1000000) ++ [46] ++ List.replicate (6 - frac.length) 48 ++ frac
  if n < 0 then 45 :: digits else digits

/-- The member bucket array of a key entry, with the null pointer read as an
array of empty chains, which is how every key reached by the flush walk
looks after its first member arrived. -/
def keyBuckets (msize : Nat) (ke : cmdKeyList) : List (List cmdMemberList) :=
  ke.bucket.getD (List.replicate msize [])

/-- All member entries of a key in flush order: member buckets in index
order, each chain front to back. -/
def keyEntries (msize : Nat) (ke : cmdKeyList) : List cmdMemberList :=
  (keyBuckets msize ke).flatten

/-- All key entries of a container in flush order: outer buckets in index
order, each chain front to back. -/
def containerKeys (c : cmdHashContainer) : List cmdKeyList :=
  c.bucket.flatten

/-- All member entries of a container in flush order. -/
def containerEntries (c : cmdHashContainer) : List cmdMemberList :=
  ((containerKeys c).map (keyEntries c.msize)).flatten

/-- The key, score and member triples that the ZINCRBY flush emits, one wire
command per triple, in emission order. -/
def zFlushList (c : cmdHashContainer) : List (Bytes × ℚ × Bytes) :=
  ((containerKeys c).map (fun ke =>
    (keyEntries c.msize ke).map (fun e => (ke.key, e.score, e.member)))).flatten

/-- The bytes of one flushed ZINCRBY command: the command word, the key, the
percent-f score text and the member, as four bulk strings. -/
def zTripleBytes (t : Bytes × ℚ × Bytes) : Bytes :=
  encodeCmdArgv 4 [CMD_ZINCRBY, t.1, formatDouble t.2.1, t.2.2]

/-- The ZINCRBY region of the flushed buffer. -/
def zFlushBytes (c : cmdHashContainer) : Bytes :=
  ((zFlushList c).map zTripleBytes).flatten

/-- The key and merged member list that the SADD flush emits for one key. -/
def sFlushList (c : cmdHashContainer) : List (Bytes × List Bytes) :=
  (containerKeys c).map (fun ke =>
    (ke.key, (keyEntries c.msize ke).map cmdMemberList.member))

/-- The bytes of one flushed SADD command: the header count comes from the
stored member count plus two, the arguments are the command word, the key
and the members gathered from the buckets. -/
def sKeyBytes (msize : Nat) (ke : cmdKeyList) : Bytes :=
  encodeCmdArgv (ke.count + 2)
    (CMD_SADD :: ke.key :: (keyEntries msize ke).map cmdMemberList.member)

/-- The SADD region of the flushed buffer. -/
def sFlushBytes (c : cmdHashContainer) : Bytes :=
  ((containerKeys c).map (sKeyBytes c.msize)).flatten

/-- cmdHashGetCommands: the serialization buffer is rebuilt from scratch as
all ZINCRBY commands followed by all SADD commands. -/
def cmdHashGetCommands (ht : cmdHash) : Bytes :=
  zFlushBytes ht.z_cmds ++ sFlushBytes ht.s_cmds

/-- cmdHashGetCount: the member total of the ZINCRBY family plus the key
total of the SADD family. -/
def cmdHashGetCount (ht : cmdHash) : Nat :=
  ht.z_cmds.members + ht.s_cmds.keys

/-- The append-only output buffer from buffer.h: the bytes and the logical
command counter.  Capacity bookkeeping has no observable effect when every
reallocation succeeds. -/
structure cmdBuffer where
  buf : Bytes
  cmd_count : Nat
deriving DecidableEq

/-- cmdBufferAppend: copy the bytes in and add the logical command count. -/
def cmdBufferAppend (b : cmdBuffer) (s : Bytes) (n : Nat) : cmdBuffer :=
  { buf := b.buf ++ s, cmd_count := b.cmd_count + n }

/-- The re-encoding that cmdBufferAddReply performs on a pass-through
command: string elements keep their bytes, while an integer element is
printed from the integer field of the top-level reply object rather than
from the element itself, which is what the C source does. -/
def encodeReplyBytes (r : redisReply) : Bytes :=
  encodeCmdArgv r.element.length
    (r.element.map (fun e =>
      match e with
      | .str b => b
      | .int _ => intDigits r.integer))

/-- cmdBufferAddReply: encode the command and append it with a logical
count of one. -/
def cmdBufferAddReply (b : cmdBuffer) (r : redisReply) : cmdBuffer :=
  cmdBufferAppend b (encodeReplyBytes r) 1

/-- The driver state that the pipeline threads through the processing loop:
the running input command count, the output buffer and the engine. -/
structure optimizerState where
  cmd_count : Nat
  cmd_buffer : cmdBuffer
  cmd_hash : cmdHash
deriving DecidableEq

/-- One iteration of the reply loop in processBufferFile: commands whose add
result compares equal to the TYPE_UNSUPPORTED value two go to the
pass-through buffer, and the input counter always advances. -/
def processReply (st : optimizerState) (r : redisReply) : optimizerState :=
  let p := cmdHashAdd st.cmd_hash r
  { cmd_count := st.cmd_count + 1,
    cmd_buffer := if p.1 == 2 then cmdBufferAddReply st.cmd_buffer r else st.cmd_buffer,
    cmd_hash := p.2 }

/-- processBufferFile over an already-decoded command stream. -/
def processBufferFile (ksize msize : Nat) (cmds : List redisReply) : optimizerState :=
  cmds.foldl processReply
    { cmd_count := 0, cmd_buffer := { buf := [], cmd_count := 0 },
      cmd_hash := cmdHashInit ksize msize }

/-- appendAggCommands outside stat mode: the flushed engine buffer is
appended to the output buffer together with the aggregated command count. -/
def appendAggCommands (st : optimizerState) : optimizerState :=
  let b := cmdBufferAppend st.cmd_buffer (cmdHashGetCommands st.cmd_hash) (cmdHashGetCount st.cmd_hash)
  { st with cmd_buffer := b }

/-- The whole compaction run on a decoded stream: process every command,
then append the aggregated commands. -/
def runPipeline (ksize msize : Nat) (cmds : List redisReply) : optimizerState :=
  appendAggCommands (processBufferFile ksize msize cmds)

/-- cmdHashAdd with an allocation oracle: when the flag is true some
allocation inside the aggregation of that command fails and the C function
returns minus one.  No allocation is attempted for an unsupported command.
The C code can leave a half-built key entry behind on the failure
path; no claim observes that incomplete state, so the failing add is modelled
as leaving the engine unchanged. -/
def cmdHashAddAlloc (fail : Bool) (ht : cmdHash) (r : redisReply) :
    Int × cmdHash :=
  match __get_type r with
  | .TYPE_UNSUPPORTED => (cmdType.code .TYPE_UNSUPPORTED, ht)
  | _ => if fail then (-1, ht) else cmdHashAdd ht r

/-- One iteration of the reply loop with the allocation oracle attached to
the command: the loop inspects the add result only for equality with the
TYPE_UNSUPPORTED value, exactly as the C source does. -/
def processReplyAlloc (st : optimizerState) (p : redisReply × Bool) :
    optimizerState :=
  let q := cmdHashAddAlloc p.2 st.cmd_hash p.1
  { cmd_count := st.cmd_count + 1,
    cmd_buffer := if q.1 == 2 then cmdBufferAddReply st.cmd_buffer p.1 else st.cmd_buffer,
    cmd_hash := q.2 }

/-- processBufferFile with the allocation oracle.  Its integer return value
is what the C function returns: minus one only when the protocol reader
reports an error, which a well-formed decoded stream never does, so the
function reports zero no matter what the adds returned. -/
def processBufferFileAlloc (ksize msize : Nat)
    (cmds : List (redisReply × Bool)) : Int × optimizerState :=
  (0, cmds.foldl processReplyAlloc
    { cmd_count := 0, cmd_buffer := { buf := [], cmd_count := 0 },
      cmd_hash := cmdHashInit ksize msize })

/-- A member entry of the numeric-only predecessor engine in zhash.c: the
member bytes and the accumulated value.  Its find routine performs no
hit counting. -/
structure zMemberList where
  member : Bytes
  value : ℚ
deriving DecidableEq

/-- A key entry of the predecessor engine. -/
structure zKeyList where
  key : Bytes
  bucket : Option (List (List zMemberList))
deriving DecidableEq

/-- The predecessor engine: bucket sizes, the command count, the running
string length and the outer bucket array. -/
structure zHash where
  ksize : Nat
  msize : Nat
  count : Nat
  str_len : Nat
  bucket : List (List zKeyList)
deriving DecidableEq

/-- A freshly created predecessor engine for positive bucket sizes. -/
def zHashInit (ksize msize : Nat) : zHash :=
  { ksize := ksize, msize := msize, count := 0, str_len := 0,
    bucket := List.replicate ksize [] }

/-- The member-chain walk of the predecessor engine: a hit applies the
caller's value accumulation and nothing else, a miss appends a zeroed entry
to which the accumulation also applies. -/
def zChainFindMember (m : Bytes) (upd : zMemberList → zMemberList) :
    List zMemberList → List zMemberList × Bool
  | [] => ([upd { member := m, value := 0 }], true)
  | e :: rest =>
      if e.member.length == m.length && strncmpEq m e.member then
        (upd e :: rest, false)
      else
        let p := zChainFindMember m upd rest
        (e :: p.1, p.2)

/-- The key-chain walk of the predecessor engine. -/
def zChainFindKey (k : Bytes) : List zKeyList → List zKeyList × Nat × Bool
  | [] => ([{ key := k, bucket := none }], 0, true)
  | e :: rest =>
      if e.key.length == k.length && strncmpEq e.key k then
        (e :: rest, 0, false)
      else
        let p := zChainFindKey k rest
        (e :: p.1, p.2.1 + 1, p.2.2)

/-- zHashAdd without its input guard: find or create the key, find or create
the member, accumulate the value, and bump the count and string-length
totals on member creation. -/
def zHashAddRaw (ht : zHash) (k : Bytes) (v : ℚ) (m : Bytes) : zHash :=
  let num := GET_BUCKET k ht.ksize
  let kp := zChainFindKey k (ht.bucket.getD num [])
  match kp.1.get? kp.2.1 with
  | none => ht
  | some ke =>
      let buckets := ke.bucket.getD (List.replicate ht.msize [])
      let mnum := GET_BUCKET m ht.msize
      let mp := zChainFindMember m (fun e => { e with value := e.value + v })
                  (buckets.getD mnum [])
      let ke2 : zKeyList := { ke with bucket := some (buckets.set mnum mp.1) }
      { ht with bucket := ht.bucket.set num (kp.1.set kp.2.1 ke2),
                count := ht.count + (if mp.2 then 1 else 0),
                str_len := ht.str_len + (if mp.2 then m.length else 0) }

/-- zHashAdd from zhash.c: the guard rejects a missing or empty key, a
missing or empty member, and a value whose logical negation is true, which
for a number means the value zero.  The integer is the C return code. -/
def zHashAdd (ht : zHash) (k : Bytes) (v : ℚ) (m : Bytes) : Int × zHash :=
  if k.length < 1 || m.length < 1 || v == 0 then (-1, ht)
  else (0, zHashAddRaw ht k v m)

/-- Case-insensitive equality of whole names, length included: the
comparison the specification describes for the classifier. -/
def nameEqCI (a b : Bytes) : Bool :=
  a.map tolowerByte == b.map tolowerByte

/-- What the classifier actually accepts, stated declaratively: the name
equals the command word case-insensitively, or it starts with the word
case-insensitively and carries a zero byte right after it, since the C
comparison reads the name as a NUL-terminated string. -/
def nameMatchesCStr (name word : Bytes) : Bool :=
  nameEqCI name word ||
    ((name.take word.length).map tolowerByte == word.map tolowerByte &&
      name.getD word.length 1 == 0)

/-- Structural key count of a container: chain lengths summed over the
outer buckets. -/
def containerKeyCount (c : cmdHashContainer) : Nat :=
  (c.bucket.map List.length).sum

/-- Structural member count of one key entry. -/
def keyMemberCount (msize : Nat) (ke : cmdKeyList) : Nat :=
  ((keyBuckets msize ke).map List.length).sum

/-- Structural member count of a container. -/
def containerMemberCount (c : cmdHashContainer) : Nat :=
  (c.bucket.map (fun chain => (chain.map (keyMemberCount c.msize)).sum)).sum

/-- Structural well-formedness of a container: the outer bucket array has
the configured size, both configured sizes are positive, and every
allocated member bucket array has the configured inner size.  This holds
for a freshly created container and is preserved by every add. -/
def ContainerInv (c : cmdHashContainer) : Prop :=
  c.bucket.length = c.ksize ∧ 0 < c.ksize ∧ 0 < c.msize ∧
    ∀ ke ∈ c.bucket.flatten, ∀ b, ke.bucket = some b → b.length = c.msize

/-- The container holding exactly one key with exactly one member, in the
buckets their hashes select: the state reached by aggregating commands that
all target that one key and member. -/
def containerSingleton (ksize msize : Nat) (k m : Bytes) (q : ℚ)
    (hits : Nat) : cmdHashContainer :=
  { ksize := ksize, msize := msize, keys := 1, members := 1,
    str_len := m.length,
    bucket := (List.replicate ksize []).set (GET_BUCKET k ksize)
      [{ key := k, count := 1,
         bucket := some ((List.replicate msize []).set (GET_BUCKET m msize)
           [{ member := m, score := q, hits := hits }]) }] }

/-- The ZINCRBY k nope m command: its delta bytes do not spell a number. -/
def nopeReply : redisReply :=
  { element := [.str CMD_ZINCRBY, .str [107], .str [110, 111, 112, 101],
      .str [109]],
    integer := 0 }

/-- The ZINCRBY k 1 m command. -/
def zkmReply : redisReply :=
  { element := [.str CMD_ZINCRBY, .str [107], .str [49], .str [109]],
    integer := 0 }

/-- The SET x 1 command, which belongs to neither mergeable family. -/
def setReply : redisReply :=
  { element := [.str [83, 69, 84], .str [120], .str [49]], integer := 0 }

/-- The ECHO command carrying the integer element forty-two, as a parsed
array reply whose own integer field is zero. -/
def echoIntReply : redisReply :=
  { element := [.str [69, 67, 72, 79], .int 42], integer := 0 }

/-- A four-element command whose first element is the increment command
word followed by a zero byte. -/
def nulNameReply : redisReply :=
  { element := [.str (CMD_ZINCRBY ++ [0]), .str [107], .str [49],
      .str [109]],
    integer := 0 }

/-- The ZINCRBY z 1 m command of the mixed scenario. -/
def zMixed1 : redisReply :=
  { element := [.str CMD_ZINCRBY, .str [122], .str [49], .str [109]],
    integer := 0 }

/-- The ZINCRBY z 2 m command of the mixed scenario. -/
def zMixed2 : redisReply :=
  { element := [.str CMD_ZINCRBY, .str [122], .str [50], .str [109]],
    integer := 0 }

/-- The SADD s a command of the mixed scenario. -/
def sMixed : redisReply :=
  { element := [.str CMD_SADD, .str [115], .str [97]], integer := 0 }

/-! ### Helper lemmas about lists and the byte comparisons -/

theorem strncmpEq_refl (a : Bytes) : strncmpEq a a = true := by
  induction a with
  | nil => rfl
  | cons x xs ih => by_cases h : x = 0 <;> simp [strncmpEq, h, ih]

theorem repl_getD {α} (n i : Nat) (a : α) :
    ((List.replicate n a)[i]?).getD a = a := by
  rw [List.getElem?_replicate]
  split <;> rfl

theorem repl_set_getD {α} (n i : Nat) (a x : α) (h : i < n) :
    ((((List.replicate n a).set i x))[i]?).getD a = x := by
  rw [List.getElem?_set_eq_of_lt x (by simpa using h)]
  rfl

theorem getD_mem {α} (l : List α) (i : Nat) (d : α) (h : i < l.length) :
    l.getD i d ∈ l := by
  induction l generalizing i with
  | nil => simp at h
  | cons a t ih =>
      cases i with
      | zero => simp [List.getD_cons_zero]
      | succ j =>
          simp only [List.getD_cons_succ]
          exact List.mem_cons_of_mem _ (ih j (by simpa using h))

theorem get?_getD {α} (l : List α) (i : Nat) (d : α) (h : i < l.length) :
    l.get? i = some (l.getD i d) := by
  induction l generalizing i with
  | nil => simp at h
  | cons a t ih =>
      cases i with
      | zero => rfl
      | succ j =>
          simp only [List.getD_cons_succ, List.get?_cons_succ]
          exact ih j (by simpa using h)

theorem getD_set_eq {α} (l : List α) (i : Nat) (x d : α) (h : i < l.length) :
    (l.set i x).getD i d = x := by
  induction l generalizing i with
  | nil => simp at h
  | cons a t ih =>
      cases i with
      | zero => rfl
      | succ j =>
          simp only [List.set_cons_succ, List.getD_cons_succ]
          exact ih j (by simpa using h)

theorem flatten_replicate_nil {α} (n : Nat) :
    (List.replicate n ([] : List α)).flatten = [] := by
  induction n with
  | zero => rfl
  | succ n ih => simpa [List.replicate] using ih

theorem flatten_replicate_set {α} (n i : Nat) (l : List α) (h : i < n) :
    ((List.replicate n ([] : List α)).set i l).flatten = l := by
  induction n generalizing i with
  | zero => simp at h
  | succ n ih =>
      cases i with
      | zero => simp [List.replicate, flatten_replicate_nil]
      | succ j => simpa [List.replicate] using ih j (by simpa using h)

theorem sum_map_set {α} (f : α → Nat) (l : List α) (i : Nat) (x d : α)
    (h : i < l.length) :
    ((l.set i x).map f).sum + f (l.getD i d) = (l.map f).sum + f x := by
  induction l generalizing i with
  | nil => simp at h
  | cons a t ih =>
      cases i with
      | zero => simp [Nat.add_comm, Nat.add_left_comm]
      | succ j =>
          have := ih j (by simpa using h)
          simp only [List.set_cons_succ, List.map_cons, List.sum_cons,
            List.getD_cons_succ]
          omega

theorem GET_BUCKET_lt (s : Bytes) (size : Nat) (h : 0 < size) :
    GET_BUCKET s size < size :=
  Nat.mod_lt _ h

/-! ### The state reached by repeated adds on one key and member -/

theorem zincrby_init (ksize msize : Nat) (hk : 0 < ksize) (hm : 0 < msize)
    (k m : Bytes) (d : ℚ) :
    __hash_zincrby_cmd (containerInit ksize msize) k d m
      = containerSingleton ksize msize k m d 0 := by
  have h1 : GET_BUCKET k ksize < ksize := GET_BUCKET_lt k ksize hk
  unfold __hash_zincrby_cmd __find_key containerAddMember __find_member containerInit containerSingleton
  simp [repl_getD, chainFindKey, chainFindMember, freshKey, freshMember,
        repl_set_getD _ _ _ _ h1, List.set_set]

theorem zincrby_step (ksize msize : Nat) (hk : 0 < ksize) (hm : 0 < msize)
    (k m : Bytes) (q d : ℚ) (hits : Nat) :
    __hash_zincrby_cmd (containerSingleton ksize msize k m q hits) k d m
      = containerSingleton ksize msize k m (q + d) (hits + 1) := by
  have h1 : GET_BUCKET k ksize < ksize := GET_BUCKET_lt k ksize hk
  have h2 : GET_BUCKET m msize < msize := GET_BUCKET_lt m msize hm
  unfold __hash_zincrby_cmd __find_key containerAddMember __find_member containerSingleton
  simp [chainFindKey, chainFindMember, strncmpEq_refl,
        repl_set_getD _ _ _ _ h1, repl_set_getD _ _ _ _ h2, List.set_set]

theorem sadd_init (ksize msize : Nat) (hk : 0 < ksize) (hm : 0 < msize)
    (k m : Bytes) :
    __hash_sadd_cmd (containerInit ksize msize) k [m]
      = containerSingleton ksize msize k m 0 0 := by
  have h1 : GET_BUCKET k ksize < ksize := GET_BUCKET_lt k ksize hk
  unfold __hash_sadd_cmd __find_key containerAddMember __find_member containerInit containerSingleton
  simp [repl_getD, chainFindKey, chainFindMember, freshKey, freshMember,
        repl_set_getD _ _ _ _ h1, List.set_set]

theorem sadd_step (ksize msize : Nat) (hk : 0 < ksize) (hm : 0 < msize)
    (k m : Bytes) (hits : Nat) :
    __hash_sadd_cmd (containerSingleton ksize msize k m 0 hits) k [m]
      = containerSingleton ksize msize k m 0 (hits + 1) := by
  have h1 : GET_BUCKET k ksize < ksize := GET_BUCKET_lt k ksize hk
  have h2 : GET_BUCKET m msize < msize := GET_BUCKET_lt m msize hm
  unfold __hash_sadd_cmd __find_key containerAddMember __find_member containerSingleton
  simp [chainFindKey, chainFindMember, strncmpEq_refl,
        repl_set_getD _ _ _ _ h1, repl_set_getD _ _ _ _ h2, List.set_set]

theorem zincrby_fold (ksize msize : Nat) (hk : 0 < ksize) (hm : 0 < msize)
    (k m : Bytes) (ds : List ℚ) (q : ℚ) (hits : Nat) :
    ds.foldl (fun c d => __hash_zincrby_cmd c k d m)
        (containerSingleton ksize msize k m q hits)
      = containerSingleton ksize msize k m (q + ds.sum) (hits + ds.length) := by
  induction ds generalizing q hits with
  | nil => simp
  | cons d t ih =>
      rw [List.foldl_cons, zincrby_step ksize msize hk hm, ih,
        show q + d + t.sum = q + (d :: t).sum by rw [List.sum_cons]; ring,
        show hits + 1 + t.length = hits + (d :: t).length by
          rw [List.length_cons]; omega]

theorem singleton_keys (ksize msize : Nat) (hk : 0 < ksize) (hm : 0 < msize)
    (k m : Bytes) (q : ℚ) (hits : Nat) :
    containerKeys (containerSingleton ksize msize k m q hits)
      = [{ key := k, count := 1,
           bucket := some ((List.replicate msize []).set (GET_BUCKET m msize)
             [{ member := m, score := q, hits := hits }]) }] := by
  unfold containerKeys containerSingleton
  exact flatten_replicate_set _ _ _ (GET_BUCKET_lt k ksize hk)

theorem zFlushList_singleton (ksize msize : Nat) (hk : 0 < ksize)
    (hm : 0 < msize) (k m : Bytes) (q : ℚ) (hits : Nat) :
    zFlushList (containerSingleton ksize msize k m q hits) = [(k, q, m)] := by
  unfold zFlushList
  rw [singleton_keys ksize msize hk hm]
  simp [keyEntries, keyBuckets, containerSingleton,
        flatten_replicate_set _ _ _ (GET_BUCKET_lt m msize hm)]

theorem sFlushList_singleton (ksize msize : Nat) (hk : 0 < ksize)
    (hm : 0 < msize) (k m : Bytes) (q : ℚ) (hits : Nat) :
    sFlushList (containerSingleton ksize msize k m q hits) = [(k, [m])] := by
  unfold sFlushList
  rw [singleton_keys ksize msize hk hm]
  simp [keyEntries, keyBuckets, containerSingleton,
        flatten_replicate_set _ _ _ (GET_BUCKET_lt m msize hm)]

theorem containerEntries_singleton (ksize msize : Nat) (hk : 0 < ksize)
    (hm : 0 < msize) (k m : Bytes) (q : ℚ) (hits : Nat) :
    containerEntries (containerSingleton ksize msize k m q hits)
      = [{ member := m, score := q, hits := hits }] := by
  unfold containerEntries
  rw [singleton_keys ksize msize hk hm]
  simp [keyEntries, keyBuckets, containerSingleton,
        flatten_replicate_set _ _ _ (GET_BUCKET_lt m msize hm)]

theorem sadd_iterate (ksize msize : Nat) (hk : 0 < ksize) (hm : 0 < msize)
    (k m : Bytes) (N : Nat) :
    Nat.iterate (fun c => __hash_sadd_cmd c k [m]) (N + 1)
        (containerInit ksize msize)
      = containerSingleton ksize msize k m 0 N := by
  induction N with
  | zero =>
      rw [show (0 + 1) = 1 from rfl, Function.iterate_one]
      exact sadd_init ksize msize hk hm k m
  | succ n ih =>
      rw [Function.iterate_succ_apply', ih, sadd_step ksize msize hk hm]

/-! ### Claim theorems -/

/-- C1: for every key and member, a sequence of numeric-merge adds with
deltas applied to the same key and member leaves exactly one flushed
numeric command for that pair, carrying the sum of the deltas, and any
reordering of the same multiset of deltas produces the same flushed value.
Scores are exact rationals here, so the floating-point summation tolerance
the claim allows is zero. -/
theorem zincrby_additivity (ksize msize : Nat) (hk : 0 < ksize)
    (hm : 0 < msize) (k m : Bytes) (ds ds2 : List ℚ) (hne : ds ≠ [])
    (hperm : ds.Perm ds2) :
    zFlushList (ds2.foldl (fun c d => __hash_zincrby_cmd c k d m)
        (containerInit ksize msize))
      = [(k, ds.sum, m)] := by
  have hne2 : ds2 ≠ [] := fun h => hne (List.Perm.eq_nil (h ▸ hperm))
  obtain ⟨d, t, rfl⟩ := List.exists_cons_of_ne_nil hne2
  rw [List.foldl_cons, zincrby_init ksize msize hk hm,
    zincrby_fold ksize msize hk hm, zFlushList_singleton ksize msize hk hm,
    show ds.sum = d + t.sum by rw [hperm.sum_eq, List.sum_cons]]

/-- Witness for C1: deltas two, minus one and three on one key and member,
applied in a shuffled order, flush to the single command carrying their
sum. -/
theorem zincrby_additivity_witness :
    zFlushList ([(3 : ℚ), 2, -1].foldl
        (fun c d => __hash_zincrby_cmd c [107] d [109]) (containerInit 3 2))
      = [([107], List.sum [(2 : ℚ), -1, 3], [109])] :=
  zincrby_additivity 3 2 (by decide) (by decide) [107] [109]
    [(2 : ℚ), -1, 3] [(3 : ℚ), 2, -1] (by decide) (by decide)

/-- C2 counterexample: after a single set-merge add of one key and member
pair, the unique member entry carries hit count zero, not one as the claim
with N equal one requires, because the find-or-create walk only increments
the counter on repeat finds and leaves it zero on creation. -/
theorem sadd_hits_counterexample :
    ((containerEntries (__hash_sadd_cmd (containerInit 1 1) [115] [[97]])).map
        cmdMemberList.hits = [0])
    ∧ ¬ ((containerEntries (__hash_sadd_cmd (containerInit 1 1) [115]
        [[97]])).map cmdMemberList.hits = [1]) := by
  decide

/-- C2 (amended): adding the same set-merge key and member pair N times,
with N at least one, yields exactly one member entry for the pair, whose
hit count equals N minus one, and the flushed output contains the member
under that key exactly once. -/
theorem sadd_idempotence (ksize msize : Nat) (hk : 0 < ksize)
    (hm : 0 < msize) (k m : Bytes) (N : Nat) (hN : 1 ≤ N) :
    sFlushList (Nat.iterate (fun c => __hash_sadd_cmd c k [m]) N
        (containerInit ksize msize)) = [(k, [m])]
    ∧ containerEntries (Nat.iterate (fun c => __hash_sadd_cmd c k [m]) N
        (containerInit ksize msize))
      = [{ member := m, score := 0, hits := N - 1 }] := by
  obtain ⟨n, rfl⟩ : ∃ n, N = n + 1 := ⟨N - 1, by omega⟩
  rw [sadd_iterate ksize msize hk hm]
  refine ⟨sFlushList_singleton ksize msize hk hm k m 0 n, ?_⟩
  simpa using containerEntries_singleton ksize msize hk hm k m 0 n

/-- Witness for C2 as amended: three identical adds leave one entry with
hit count two and one flushed member. -/
theorem sadd_idempotence_witness :
    sFlushList (Nat.iterate (fun c => __hash_sadd_cmd c [115] [[97]]) 3
        (containerInit 1 1)) = [([115], [[97]])]
    ∧ containerEntries (Nat.iterate (fun c => __hash_sadd_cmd c [115] [[97]]) 3
        (containerInit 1 1))
      = [{ member := [97], score := 0, hits := 3 - 1 }] :=
  sadd_idempotence 1 1 (by decide) (by decide) [115] [97] 3 (by decide)

/-- C3 counterexample: a numeric add with non-empty key, non-empty member
and a delta of zero is rejected by zHashAdd with the malformed-input code,
while the claim requires it to be accepted. -/
theorem zero_delta_counterexample :
    (zHashAdd (zHashInit 1 1) [107] 0 [109]).1 = -1
    ∧ ¬ ((zHashAdd (zHashInit 1 1) [107] 0 [109]).1 = 0) := by
  decide

/-- C3 (amended): the numeric-family add of zhash.c fails with the
malformed-input code exactly when the key is empty, the member is empty, or
the delta is zero; it succeeds exactly otherwise.  A zero delta is rejected,
not accepted, because the guard also tests the logical negation of the
value. -/
theorem zhash_add_validation (ht : zHash) (k m : Bytes) (v : ℚ) :
    ((zHashAdd ht k v m).1 = -1 ↔ (k = [] ∨ m = [] ∨ v = 0))
    ∧ ((zHashAdd ht k v m).1 = 0 ↔ ¬ (k = [] ∨ m = [] ∨ v = 0)) := by
  have hg : (k.length < 1 || m.length < 1 || (v == 0)) = true
      ↔ (k = [] ∨ m = [] ∨ v = 0) := by
    simp [Nat.lt_one_iff, List.length_eq_zero, or_assoc]
  unfold zHashAdd
  by_cases h : k = [] ∨ m = [] ∨ v = 0
  · rw [if_pos (hg.mpr h)]
    exact ⟨iff_of_true rfl h, iff_of_false (by simp) (not_not_intro h)⟩
  · rw [if_neg (fun hc => h (hg.mp hc))]
    exact ⟨iff_of_false (by simp) h, iff_of_true rfl h⟩

/-- The zero byte is the only byte that tolower maps to zero. -/
theorem tolowerByte_eq_zero (c : Nat) : tolowerByte c = 0 ↔ c = 0 := by
  unfold tolowerByte
  split <;> omega

/-- The strncasecmp test the classifier performs, with the byte budget one
past the word length, accepts exactly the names that equal the word as
NUL-terminated strings: the name is the word up to case, or it extends the
word with a zero byte right after it. -/
theorem strncasecmp_matches (name word : Bytes) (hw : ∀ c ∈ word, c ≠ 0) :
    strncasecmpEq name word (word.length + 1) = nameMatchesCStr name word := by
  induction word generalizing name with
  | nil =>
      cases name with
      | nil => rfl
      | cons a as =>
          simp [strncasecmpEq, nameMatchesCStr, nameEqCI, List.getD]
  | cons w ws ih =>
      have hw0 : w ≠ 0 := hw w (List.mem_cons_self w ws)
      have hws : ∀ c ∈ ws, c ≠ 0 := fun c hc => hw c (List.mem_cons_of_mem w hc)
      have hlw : tolowerByte w ≠ 0 := fun hh => hw0 ((tolowerByte_eq_zero w).mp hh)
      cases name with
      | nil =>
          simp [strncasecmpEq, nameMatchesCStr, nameEqCI, hw0]
      | cons a as =>
          by_cases ha : a = 0
          · subst ha
            have hfw : (tolowerByte 0 == tolowerByte w) = false := by
              rw [show tolowerByte 0 = 0 from rfl]
              exact beq_eq_false_iff_ne.mpr (Ne.symm hlw)
            simp [List.length_cons, strncasecmpEq, hfw, Bool.false_and,
              nameMatchesCStr, nameEqCI, List.map_cons, List.take_succ_cons,
              List.cons_beq_cons, List.getD_cons_succ, Bool.false_or]
          · have hne : (a == 0) = false := beq_eq_false_iff_ne.mpr ha
            have step : strncasecmpEq (a :: as) (w :: ws) ((w :: ws).length + 1)
                = (tolowerByte a == tolowerByte w
                    && strncasecmpEq as ws (ws.length + 1)) := by
              simp [strncasecmpEq, hne]
            rw [step, ih as hws]
            simp only [nameMatchesCStr, nameEqCI, List.map_cons, List.length_cons,
              List.take_succ_cons, List.getD_cons_succ, List.cons_beq_cons]
            cases hab : tolowerByte a == tolowerByte w <;>
              simp [Bool.and_or_distrib_left, Bool.and_assoc]

/-- A name accepted against a non-empty word starts with a byte whose
lowercase form matches the word's first byte. -/
theorem nameMatches_first (name : Bytes) (w0 : Nat) (ws : Bytes)
    (h : nameMatchesCStr name (w0 :: ws) = true) :
    ∃ a as, name = a :: as ∧ tolowerByte a = tolowerByte w0 := by
  cases name with
  | nil => simp [nameMatchesCStr, nameEqCI] at h
  | cons a as =>
      refine ⟨a, as, rfl, ?_⟩
      simp only [nameMatchesCStr, nameEqCI, List.map_cons, List.length_cons,
        List.take_succ_cons, List.getD_cons_succ, List.cons_beq_cons,
        Bool.or_eq_true, Bool.and_eq_true, beq_iff_eq] at h
      rcases h with ⟨h1, _⟩ | ⟨⟨h1, _⟩, _⟩ <;> exact h1

/-- No name is accepted against both command words: their first letters
differ even case-insensitively. -/
theorem no_double_match (n : Bytes)
    (hz : nameMatchesCStr n CMD_ZINCRBY = true)
    (hs : nameMatchesCStr n CMD_SADD = true) : False := by
  obtain ⟨a, as, he, ha⟩ := nameMatches_first n 90 [73, 78, 67, 82, 66, 89] hz
  obtain ⟨a2, as2, he2, ha2⟩ := nameMatches_first n 83 [65, 68, 68] hs
  rw [he] at he2
  cases he2
  rw [ha] at ha2
  simp [tolowerByte] at ha2

/-- C8 counterexample: a first element consisting of the increment command
word followed by a zero byte is classified as a numeric merge even though
its name does not equal the command word under whole-name case-insensitive
comparison, because the C comparison stops at the NUL terminator. -/
theorem classify_exact_length_cex :
    __get_type nulNameReply = .TYPE_ZINCRBY
    ∧ ¬ (nameEqCI (CMD_ZINCRBY ++ [0]) CMD_ZINCRBY = true) := by
  decide

/-- C8 (amended): classification is total and exhaustive over the three
tags; a command is a numeric merge exactly when it has exactly four
elements and its name, read as a NUL-terminated C string, matches the
increment command word case-insensitively, which accepts the word itself in
any case and also any name extending the word with a zero byte; a set merge
exactly when it has more than two elements and the name matches the
add-members word the same way; unsupported exactly otherwise. -/
theorem classify_spec (r : redisReply) :
    (__get_type r = .TYPE_ZINCRBY ↔
        r.element.length = 4
        ∧ nameMatchesCStr (replyArg r 0) CMD_ZINCRBY = true)
    ∧ (__get_type r = .TYPE_SADD ↔
        2 < r.element.length
        ∧ nameMatchesCStr (replyArg r 0) CMD_SADD = true)
    ∧ (__get_type r = .TYPE_UNSUPPORTED ↔
        ¬ (r.element.length = 4
            ∧ nameMatchesCStr (replyArg r 0) CMD_ZINCRBY = true)
        ∧ ¬ (2 < r.element.length
            ∧ nameMatchesCStr (replyArg r 0) CMD_SADD = true)) := by
  have hz : strncasecmpEq (replyArg r 0) CMD_ZINCRBY 8
      = nameMatchesCStr (replyArg r 0) CMD_ZINCRBY :=
    strncasecmp_matches _ _ (by decide)
  have hs : strncasecmpEq (replyArg r 0) CMD_SADD 5
      = nameMatchesCStr (replyArg r 0) CMD_SADD :=
    strncasecmp_matches _ _ (by decide)
  unfold __get_type
  rw [hz, hs]
  by_cases h1 : r.element.length = 4
      ∧ nameMatchesCStr (replyArg r 0) CMD_ZINCRBY = true
  · have hno : ¬ (2 < r.element.length
        ∧ nameMatchesCStr (replyArg r 0) CMD_SADD = true) :=
      fun h2 => no_double_match _ h1.2 h2.2
    rw [if_pos (by simp [h1.1, h1.2])]
    exact ⟨iff_of_true rfl h1, iff_of_false (by decide) hno,
      iff_of_false (by decide) (fun hc => hc.1 h1)⟩
  · rw [if_neg (by
      simp only [Bool.and_eq_true, beq_iff_eq]
      exact fun h => h1 ⟨h.1, h.2⟩)]
    by_cases h2 : 2 < r.element.length
        ∧ nameMatchesCStr (replyArg r 0) CMD_SADD = true
    · rw [if_pos (by simp [h2.1, h2.2])]
      exact ⟨iff_of_false (by decide) h1, iff_of_true rfl h2,
        iff_of_false (by decide) (fun hc => hc.2 h2)⟩
    · rw [if_neg (by
        simp only [Bool.and_eq_true, decide_eq_true_eq]
        exact fun h => h2 ⟨h.1, h.2⟩)]
      exact ⟨iff_of_false (by decide) h1, iff_of_false (by decide) h2,
        iff_of_true rfl ⟨h1, h2⟩⟩

/-- C10: an unsupported command makes cmdHashAdd return the
TYPE_UNSUPPORTED value two and leave the whole engine state, both family
containers and the internal serialization buffer included, unchanged. -/
theorem unsupported_frame (ht : cmdHash) (r : redisReply)
    (h : __get_type r = .TYPE_UNSUPPORTED) :
    cmdHashAdd ht r = (2, ht) := by
  simp [cmdHashAdd, h, cmdType.code]

/-- Witness for C10: a three-element SET command is unsupported and leaves
a freshly created engine untouched. -/
theorem unsupported_frame_witness :
    cmdHashAdd (cmdHashInit 2 2) setReply = (2, cmdHashInit 2 2) :=
  unsupported_frame (cmdHashInit 2 2) setReply (by decide)

/-- C9: the pass-through re-encoding renders an integer element from the
integer field of the top-level reply, which is zero for an array, instead
of the element's own value: the command ECHO 42 is emitted with the digits
of zero where the digits of forty-two belong. -/
theorem pass_through_integer_bug :
    encodeReplyBytes echoIntReply
      = encodeCmdArgv 2 [[69, 67, 72, 79], intDigits 0]
    ∧ intDigits 0 ≠ intDigits 42 := by
  decide

/-- C4: a numeric-merge command whose delta bytes spell the word nope is
not rejected: strtod converts nothing and yields zero, the processing loop
reports success, the command is merged with a zero delta, and a non-empty
output buffer is produced. -/
theorem malformed_delta_accepted :
    (processBufferFileAlloc 3 2 [(nopeReply, false)]).1 = 0
    ∧ strtod [110, 111, 112, 101] = 0
    ∧ zFlushList (runPipeline 3 2 [nopeReply]).cmd_hash.z_cmds
      = [([107], 0, [109])]
    ∧ (runPipeline 3 2 [nopeReply]).cmd_buffer.cmd_count = 1 := by
  have hs : strtod [110, 111, 112, 101] = 0 := by
    simp [strtod, parseUnsignedDec, digitsVal, isDigitByte, List.dropWhile,
      List.takeWhile]
  have hz : (runPipeline 3 2 [nopeReply]).cmd_hash.z_cmds
      = __hash_zincrby_cmd (containerInit 3 2) [107]
          (strtod [110, 111, 112, 101]) [109] := rfl
  refine ⟨rfl, hs, ?_, rfl⟩
  rw [hz, zincrby_init 3 2 (by decide) (by decide),
    zFlushList_singleton 3 2 (by decide) (by decide), hs]

/-- C7: when an allocation fails inside the aggregation of a supported
command, the add reports minus one, but the processing loop compares the
result only against the TYPE_UNSUPPORTED value two, so the run still
reports success and the command is counted as processed: the failure is
silently dropped instead of aborting the run. -/
theorem alloc_failure_swallowed :
    cmdHashAddAlloc true (cmdHashInit 1 1) zkmReply = (-1, cmdHashInit 1 1)
    ∧ (processBufferFileAlloc 1 1 [(zkmReply, true)]).1 = 0
    ∧ ((processBufferFileAlloc 1 1 [(zkmReply, true)]).2).cmd_count = 1
    ∧ ¬ ((-1 : Int) = 0) := by
  decide
/-- The add result of the engine compares equal to the TYPE_UNSUPPORTED
value two exactly for unsupported commands. -/
theorem cmdHashAdd_fst (ht : cmdHash) (r : redisReply) :
    ((cmdHashAdd ht r).1 == 2) = (__get_type r == cmdType.TYPE_UNSUPPORTED) := by
  rcases h : __get_type r <;> simp [cmdHashAdd, h, cmdType.code]

/-- While the loop runs, the output buffer accumulates exactly the
encodings of the unsupported commands, in input order. -/
theorem process_fold_buf (cmds : List redisReply) (st : optimizerState) :
    (cmds.foldl processReply st).cmd_buffer.buf
      = st.cmd_buffer.buf
        ++ ((cmds.filter (fun r => __get_type r == cmdType.TYPE_UNSUPPORTED)).map
            encodeReplyBytes).flatten := by
  induction cmds generalizing st with
  | nil => simp
  | cons r t ih =>
      rw [List.foldl_cons, ih]
      by_cases h : __get_type r = cmdType.TYPE_UNSUPPORTED
      · simp [processReply, cmdHashAdd_fst, h, cmdBufferAddReply,
          cmdBufferAppend, List.filter_cons, List.append_assoc]
      · have hb : (__get_type r == cmdType.TYPE_UNSUPPORTED) = false := by
          simp [h]
        simp [processReply, cmdHashAdd_fst, hb, List.filter_cons]

/-- C5: the final output buffer is the concatenation of the encodings of
the pass-through commands in their original relative input order, followed
by all merged ZINCRBY commands, followed by all merged SADD commands;
aggregated commands are appended after the whole pass-through region and
never interleaved with it. -/
theorem output_layout (ksize msize : Nat) (cmds : List redisReply) :
    (runPipeline ksize msize cmds).cmd_buffer.buf
      = ((cmds.filter (fun r => __get_type r == cmdType.TYPE_UNSUPPORTED)).map
          encodeReplyBytes).flatten
        ++ zFlushBytes (runPipeline ksize msize cmds).cmd_hash.z_cmds
        ++ sFlushBytes (runPipeline ksize msize cmds).cmd_hash.s_cmds := by
  have h1 : (runPipeline ksize msize cmds).cmd_hash
      = (processBufferFile ksize msize cmds).cmd_hash := rfl
  have h2 : (runPipeline ksize msize cmds).cmd_buffer.buf
      = (processBufferFile ksize msize cmds).cmd_buffer.buf
        ++ (zFlushBytes (processBufferFile ksize msize cmds).cmd_hash.z_cmds
            ++ sFlushBytes (processBufferFile ksize msize cmds).cmd_hash.s_cmds) := rfl
  have h3 : (processBufferFile ksize msize cmds).cmd_buffer.buf
      = ((cmds.filter (fun r => __get_type r == cmdType.TYPE_UNSUPPORTED)).map
          encodeReplyBytes).flatten := by
    unfold processBufferFile
    rw [process_fold_buf]
    simp
  rw [h2, h1, h3, List.append_assoc]

/-- Writing back the value already stored at a position is a no-op. -/
theorem set_getD_self {α} (l : List α) (i : Nat) (d : α) (h : i < l.length) :
    l.set i (l.getD i d) = l := by
  induction l generalizing i with
  | nil => simp at h
  | cons a t ih =>
      cases i with
      | zero => simp [List.getD_cons_zero]
      | succ j =>
          simp only [List.getD_cons_succ, List.set_cons_succ]
          rw [ih j (by simpa using h)]

/-- A freshly created key entry holds no members. -/
theorem keyMemberCount_freshKey (msize : Nat) (k : Bytes) :
    keyMemberCount msize (freshKey k) = 0 := by
  simp [keyMemberCount, keyBuckets, freshKey, List.map_replicate]

/-- When the key walk reports creation, the new entry sits at the chain
tail and the reported position is the old length. -/
theorem chainFindKey_created (k : Bytes) (l : List cmdKeyList)
    (h : (chainFindKey k l).2.2 = true) :
    (chainFindKey k l).1 = l ++ [freshKey k]
    ∧ (chainFindKey k l).2.1 = l.length := by
  induction l with
  | nil => simp [chainFindKey]
  | cons e t ih =>
      cases hc : (e.key.length == k.length && strncmpEq e.key k) with
      | true =>
          rw [chainFindKey] at h
          simp [hc] at h
      | false =>
          rw [chainFindKey] at h ⊢
          simp only [hc, Bool.false_eq_true, if_false] at h ⊢
          obtain ⟨h1, h2⟩ := ih h
          simp [h1, h2]

/-- When the key walk reports a hit, the chain is returned unchanged and
the reported position is in range. -/
theorem chainFindKey_found (k : Bytes) (l : List cmdKeyList)
    (h : (chainFindKey k l).2.2 = false) :
    (chainFindKey k l).1 = l ∧ (chainFindKey k l).2.1 < l.length := by
  induction l with
  | nil => simp [chainFindKey] at h
  | cons e t ih =>
      cases hc : (e.key.length == k.length && strncmpEq e.key k) with
      | true =>
          rw [chainFindKey]
          simp [hc]
      | false =>
          rw [chainFindKey] at h ⊢
          simp only [hc, Bool.false_eq_true, if_false] at h ⊢
          obtain ⟨h1, h2⟩ := ih h
          simp only [List.length_cons]
          exact ⟨by simp [h1], by omega⟩

/-- The member walk grows the chain by one entry exactly when it reports a
creation. -/
theorem chainFindMember_len (m : Bytes) (upd : cmdMemberList → cmdMemberList)
    (l : List cmdMemberList) :
    (chainFindMember m upd l).1.length
      = l.length + (if (chainFindMember m upd l).2 then 1 else 0) := by
  induction l with
  | nil => simp [chainFindMember]
  | cons e t ih =>
      cases hc : (e.member.length == m.length && strncmpEq m e.member) with
      | true =>
          rw [chainFindMember]
          simp [hc]
      | false =>
          rw [chainFindMember]
          simp only [hc, Bool.false_eq_true, if_false, List.length_cons]
          omega

/-- What one member add does to a key entry: the key bytes are kept, the
member bucket array stays at the configured size, and the structural member
count and the stored per-key member count both grow exactly when an entry
was created. -/
theorem find_member_spec (msize : Nat) (hm : 0 < msize) (ke : cmdKeyList)
    (m : Bytes) (upd : cmdMemberList → cmdMemberList)
    (hb : ∀ b, ke.bucket = some b → b.length = msize) :
    (__find_member msize ke m upd).1.key = ke.key
    ∧ (∀ b2, (__find_member msize ke m upd).1.bucket = some b2 →
        b2.length = msize)
    ∧ keyMemberCount msize (__find_member msize ke m upd).1
        = keyMemberCount msize ke
          + (if (__find_member msize ke m upd).2 then 1 else 0)
    ∧ (__find_member msize ke m upd).1.count
        = ke.count + (if (__find_member msize ke m upd).2 then 1 else 0) := by
  have hlen : (ke.bucket.getD (List.replicate msize [])).length = msize := by
    cases hkb : ke.bucket with
    | none => simp
    | some b => simpa using hb b hkb
  have hnum : GET_BUCKET m msize
      < (ke.bucket.getD (List.replicate msize [])).length := by
    rw [hlen]
    exact GET_BUCKET_lt m msize hm
  have hchain := chainFindMember_len m upd
    ((ke.bucket.getD (List.replicate msize [])).getD (GET_BUCKET m msize) [])
  have hsum := sum_map_set List.length (ke.bucket.getD (List.replicate msize []))
    (GET_BUCKET m msize)
    (chainFindMember m upd ((ke.bucket.getD (List.replicate msize [])).getD
      (GET_BUCKET m msize) [])).1 [] hnum
  refine ⟨rfl, ?_, ?_, rfl⟩
  · intro b2 hb2
    simp only [__find_member, Option.some.injEq] at hb2
    rw [← hb2]
    simp [hlen]
  · simp only [__find_member, keyMemberCount, keyBuckets, Option.getD_some]
    omega

/-- What one member add at a located key entry does to a container: the
sizes, the key counter and the structural key count are untouched, the
member counter and the structural member count grow together by at most
one, well-formedness is preserved, and the located chain keeps its
length. -/
theorem containerAddMember_spec (c : cmdHashContainer) (bi ci : Nat)
    (m : Bytes) (upd : cmdMemberList → cmdMemberList)
    (hinv : ContainerInv c) (hbi : bi < c.bucket.length)
    (hci : ci < (c.bucket.getD bi []).length) :
    ∃ b : Bool,
      (containerAddMember c bi ci m upd).ksize = c.ksize
      ∧ (containerAddMember c bi ci m upd).msize = c.msize
      ∧ (containerAddMember c bi ci m upd).keys = c.keys
      ∧ containerKeyCount (containerAddMember c bi ci m upd)
          = containerKeyCount c
      ∧ (containerAddMember c bi ci m upd).members
          = c.members + (if b then 1 else 0)
      ∧ containerMemberCount (containerAddMember c bi ci m upd)
          = containerMemberCount c + (if b then 1 else 0)
      ∧ ContainerInv (containerAddMember c bi ci m upd)
      ∧ (containerAddMember c bi ci m upd).bucket.length = c.bucket.length
      ∧ ((containerAddMember c bi ci m upd).bucket.getD bi []).length
          = (c.bucket.getD bi []).length := by
  obtain ⟨hblen, hkpos, hmpos, hmb⟩ := hinv
  have hke : (c.bucket.getD bi []).get? ci
      = some ((c.bucket.getD bi []).getD ci (freshKey [])) :=
    get?_getD (c.bucket.getD bi []) ci (freshKey []) hci
  have hchainmem : c.bucket.getD bi [] ∈ c.bucket := getD_mem c.bucket bi [] hbi
  have hkemem : (c.bucket.getD bi []).getD ci (freshKey [])
      ∈ c.bucket.flatten := by
    refine List.mem_flatten.mpr ⟨c.bucket.getD bi [], hchainmem, ?_⟩
    exact getD_mem (c.bucket.getD bi []) ci (freshKey []) hci
  obtain ⟨hkey, hb2, hkmc, hcount⟩ := find_member_spec c.msize hmpos
    ((c.bucket.getD bi []).getD ci (freshKey [])) m upd
    (hmb ((c.bucket.getD bi []).getD ci (freshKey [])) hkemem)
  have hunfold : containerAddMember c bi ci m upd
      = { c with
          bucket := c.bucket.set bi ((c.bucket.getD bi []).set ci
            (__find_member c.msize ((c.bucket.getD bi []).getD ci
              (freshKey [])) m upd).1),
          members := c.members + (if (__find_member c.msize
            ((c.bucket.getD bi []).getD ci (freshKey [])) m upd).2
            then 1 else 0),
          str_len := c.str_len + (if (__find_member c.msize
            ((c.bucket.getD bi []).getD ci (freshKey [])) m upd).2
            then m.length else 0) } := by
    unfold containerAddMember
    simp only [hke]
  refine ⟨(__find_member c.msize ((c.bucket.getD bi []).getD ci (freshKey []))
    m upd).2, ?_, ?_, ?_, ?_, ?_, ?_, ?_, ?_, ?_⟩
  · rw [hunfold]
  · rw [hunfold]
  · rw [hunfold]
  · rw [hunfold]
    simp only [containerKeyCount]
    have hs := sum_map_set List.length c.bucket bi
      ((c.bucket.getD bi []).set ci (__find_member c.msize
        ((c.bucket.getD bi []).getD ci (freshKey [])) m upd).1) [] hbi
    simp only [List.length_set] at hs
    omega
  · rw [hunfold]
  · rw [hunfold]
    simp only [containerMemberCount]
    have hinner := sum_map_set (keyMemberCount c.msize) (c.bucket.getD bi [])
      ci (__find_member c.msize ((c.bucket.getD bi []).getD ci (freshKey []))
        m upd).1 (freshKey []) hci
    have houter := sum_map_set
      (fun chain => (chain.map (keyMemberCount c.msize)).sum) c.bucket bi
      ((c.bucket.getD bi []).set ci (__find_member c.msize
        ((c.bucket.getD bi []).getD ci (freshKey [])) m upd).1) [] hbi
    simp only at houter
    omega
  · rw [hunfold]
    refine ⟨by simpa using hblen, hkpos, hmpos, ?_⟩
    intro ke2 hmem2 b3 hb3
    obtain ⟨chain2, hc2, hk2⟩ := List.mem_flatten.mp hmem2
    rcases List.mem_or_eq_of_mem_set hc2 with hin | rfl
    · exact hmb ke2 (List.mem_flatten.mpr ⟨chain2, hin, hk2⟩) b3 hb3
    · rcases List.mem_or_eq_of_mem_set hk2 with hin2 | rfl
      · exact hmb ke2 (List.mem_flatten.mpr ⟨c.bucket.getD bi [],
          hchainmem, hin2⟩) b3 hb3
      · exact hb2 b3 hb3
  · rw [hunfold]
    simp
  · rw [hunfold]
    simp only []
    rw [getD_set_eq c.bucket bi _ [] hbi]
    simp

/-- What the find-or-create key routine does to a container: the sizes, the
member totals and the structural member count are untouched, the key
counter and the structural key count grow together exactly when a key was
created, well-formedness is preserved, and the returned location points at
an existing chain slot. -/
theorem find_key_spec (c : cmdHashContainer) (k : Bytes)
    (hinv : ContainerInv c) :
    ∃ b : Bool,
      (__find_key c k).1.ksize = c.ksize
      ∧ (__find_key c k).1.msize = c.msize
      ∧ (__find_key c k).1.members = c.members
      ∧ (__find_key c k).1.str_len = c.str_len
      ∧ (__find_key c k).1.keys = c.keys + (if b then 1 else 0)
      ∧ containerKeyCount (__find_key c k).1
          = containerKeyCount c + (if b then 1 else 0)
      ∧ containerMemberCount (__find_key c k).1 = containerMemberCount c
      ∧ ContainerInv (__find_key c k).1
      ∧ (__find_key c k).2.1 < (__find_key c k).1.bucket.length
      ∧ (__find_key c k).2.2
          < ((__find_key c k).1.bucket.getD (__find_key c k).2.1 []).length := by
  obtain ⟨hblen, hkpos, hmpos, hmb⟩ := hinv
  have hnum : GET_BUCKET k c.ksize < c.bucket.length := by
    rw [hblen]
    exact GET_BUCKET_lt k c.ksize hkpos
  have hunfold : __find_key c k
      = ({ c with
           bucket := c.bucket.set (GET_BUCKET k c.ksize)
             (chainFindKey k (c.bucket.getD (GET_BUCKET k c.ksize) [])).1,
           keys := c.keys + (if (chainFindKey k (c.bucket.getD
             (GET_BUCKET k c.ksize) [])).2.2 then 1 else 0) },
         GET_BUCKET k c.ksize,
         (chainFindKey k (c.bucket.getD (GET_BUCKET k c.ksize) [])).2.1) := rfl
  cases hc : (chainFindKey k (c.bucket.getD (GET_BUCKET k c.ksize) [])).2.2 with
  | false =>
      obtain ⟨h1, h2⟩ := chainFindKey_found k
        (c.bucket.getD (GET_BUCKET k c.ksize) []) hc
      have hceq : (__find_key c k).1 = c := by
        rw [hunfold]
        simp only [h1, hc, Bool.false_eq_true, if_false]
        rw [set_getD_self c.bucket (GET_BUCKET k c.ksize) [] hnum]
        simp
      refine ⟨false, ?_, ?_, ?_, ?_, ?_, ?_, ?_, ?_, ?_, ?_⟩
      · rw [hceq]
      · rw [hceq]
      · rw [hceq]
      · rw [hceq]
      · rw [hceq]
        simp
      · rw [hceq]
        simp
      · rw [hceq]
      · rw [hceq]
        exact ⟨hblen, hkpos, hmpos, hmb⟩
      · rw [hceq, hunfold]
        exact hnum
      · rw [hceq, hunfold]
        exact h2
  | true =>
      obtain ⟨h1, h2⟩ := chainFindKey_created k
        (c.bucket.getD (GET_BUCKET k c.ksize) []) hc
      have hrec : (__find_key c k).1
          = { c with
              bucket := c.bucket.set (GET_BUCKET k c.ksize)
                ((c.bucket.getD (GET_BUCKET k c.ksize) []) ++ [freshKey k]),
              keys := c.keys + 1 } := by
        rw [hunfold, h1, hc]
        simp
      have hckc : containerKeyCount (__find_key c k).1
          = containerKeyCount c + 1 := by
        have hs := sum_map_set List.length c.bucket (GET_BUCKET k c.ksize)
          ((c.bucket.getD (GET_BUCKET k c.ksize) []) ++ [freshKey k]) [] hnum
        simp only [List.length_append, List.length_singleton] at hs
        rw [hrec]
        simp only [containerKeyCount]
        omega
      have hcmc : containerMemberCount (__find_key c k).1
          = containerMemberCount c := by
        have hs := sum_map_set
          (fun chain => (chain.map (keyMemberCount c.msize)).sum) c.bucket
          (GET_BUCKET k c.ksize)
          ((c.bucket.getD (GET_BUCKET k c.ksize) []) ++ [freshKey k]) [] hnum
        simp only [List.map_append, List.sum_append, List.map_cons,
          List.map_nil, List.sum_cons, List.sum_nil,
          keyMemberCount_freshKey] at hs
        rw [hrec]
        simp only [containerMemberCount]
        omega
      refine ⟨true, ?_, ?_, ?_, ?_, ?_, ?_, ?_, ?_, ?_, ?_⟩
      · rw [hrec]
      · rw [hrec]
      · rw [hrec]
      · rw [hrec]
      · rw [hrec]
        simp
      · simpa using hckc
      · exact hcmc
      · rw [hrec]
        refine ⟨by simpa using hblen, hkpos, hmpos, ?_⟩
        intro ke2 hmem2 b3 hb3
        obtain ⟨chain2, hc2, hk2⟩ := List.mem_flatten.mp hmem2
        rcases List.mem_or_eq_of_mem_set hc2 with hin | rfl
        · exact hmb ke2 (List.mem_flatten.mpr ⟨chain2, hin, hk2⟩) b3 hb3
        · rcases List.mem_append.mp hk2 with hin2 | hin2
          · exact hmb ke2 (List.mem_flatten.mpr
              ⟨c.bucket.getD (GET_BUCKET k c.ksize) [],
               getD_mem c.bucket (GET_BUCKET k c.ksize) [] hnum, hin2⟩) b3 hb3
          · have heq2 : ke2 = freshKey k := by simpa using hin2
            rw [heq2] at hb3
            simp [freshKey] at hb3
      · rw [hrec]
        simpa using hnum
      · rw [hunfold]
        show (chainFindKey k (c.bucket.getD (GET_BUCKET k c.ksize) [])).2.1
          < ((c.bucket.set (GET_BUCKET k c.ksize)
              (chainFindKey k (c.bucket.getD (GET_BUCKET k c.ksize) [])).1).getD
              (GET_BUCKET k c.ksize) []).length
        rw [h1, getD_set_eq c.bucket (GET_BUCKET k c.ksize) _ [] hnum, h2]
        simp

/-- One ZINCRBY aggregation step: sizes preserved, key counter and
structural key count advance together by at most one, member counter and
structural member count advance together by at most one, well-formedness
preserved. -/
theorem zincrby_op_spec (c : cmdHashContainer) (k : Bytes) (d : ℚ)
    (m : Bytes) (hinv : ContainerInv c) :
    ∃ bk bm : Bool,
      (__hash_zincrby_cmd c k d m).ksize = c.ksize
      ∧ (__hash_zincrby_cmd c k d m).msize = c.msize
      ∧ (__hash_zincrby_cmd c k d m).keys = c.keys + (if bk then 1 else 0)
      ∧ containerKeyCount (__hash_zincrby_cmd c k d m)
          = containerKeyCount c + (if bk then 1 else 0)
      ∧ (__hash_zincrby_cmd c k d m).members
          = c.members + (if bm then 1 else 0)
      ∧ containerMemberCount (__hash_zincrby_cmd c k d m)
          = containerMemberCount c + (if bm then 1 else 0)
      ∧ ContainerInv (__hash_zincrby_cmd c k d m) := by
  obtain ⟨bk, hks, hms, hmem, hstr, hkeys, hckc, hcmc, hinv1, hbi, hci⟩ :=
    find_key_spec c k hinv
  obtain ⟨bm, aks, ams, akeys, ackc, amem, acmc, ainv, ablen, achain⟩ :=
    containerAddMember_spec (__find_key c k).1 (__find_key c k).2.1
      (__find_key c k).2.2 m (fun e => { e with score := e.score + d })
      hinv1 hbi hci
  have hdef : __hash_zincrby_cmd c k d m
      = containerAddMember (__find_key c k).1 (__find_key c k).2.1
          (__find_key c k).2.2 m
          (fun e => { e with score := e.score + d }) := rfl
  refine ⟨bk, bm, ?_, ?_, ?_, ?_, ?_, ?_, ?_⟩ <;> rw [hdef]
  · rw [aks, hks]
  · rw [ams, hms]
  · rw [akeys, hkeys]
  · rw [ackc, hckc]
  · rw [amem, hmem]
  · rw [acmc, hcmc]
  · exact ainv

/-- Folding member adds at a fixed located key entry: sizes, the key
counter and the structural key count stay put, the member counter and the
structural member count advance together, well-formedness is kept. -/
theorem sadd_fold_spec (ms : List Bytes) (c : cmdHashContainer) (bi ci : Nat)
    (hinv : ContainerInv c) (hbi : bi < c.bucket.length)
    (hci : ci < (c.bucket.getD bi []).length) :
    ∃ dm : Nat,
      (ms.foldl (fun c m => containerAddMember c bi ci m id) c).ksize = c.ksize
      ∧ (ms.foldl (fun c m => containerAddMember c bi ci m id) c).msize
          = c.msize
      ∧ (ms.foldl (fun c m => containerAddMember c bi ci m id) c).keys = c.keys
      ∧ containerKeyCount (ms.foldl (fun c m => containerAddMember c bi ci m id) c)
          = containerKeyCount c
      ∧ (ms.foldl (fun c m => containerAddMember c bi ci m id) c).members
          = c.members + dm
      ∧ containerMemberCount
            (ms.foldl (fun c m => containerAddMember c bi ci m id) c)
          = containerMemberCount c + dm
      ∧ ContainerInv (ms.foldl (fun c m => containerAddMember c bi ci m id) c) := by
  induction ms generalizing c with
  | nil => exact ⟨0, rfl, rfl, rfl, rfl, by simp, by simp, hinv⟩
  | cons m t ih =>
      obtain ⟨b1, aks, ams, akeys, ackc, amem, acmc, ainv, ablen, achain⟩ :=
        containerAddMember_spec c bi ci m id hinv hbi hci
      obtain ⟨dm, tks, tms, tkeys, tckc, tmem, tcmc, tinv⟩ :=
        ih (containerAddMember c bi ci m id) ainv (by rw [ablen]; exact hbi)
          (by rw [achain]; exact hci)
      refine ⟨(if b1 then 1 else 0) + dm, ?_, ?_, ?_, ?_, ?_, ?_, ?_⟩ <;>
        rw [List.foldl_cons]
      · rw [tks, aks]
      · rw [tms, ams]
      · rw [tkeys, akeys]
      · rw [tckc, ackc]
      · rw [tmem, amem]
        omega
      · rw [tcmc, acmc]
        omega
      · exact tinv

/-- One SADD aggregation step: sizes preserved, key counter and structural
key count advance together by at most one, member counter and structural
member count advance together, well-formedness preserved. -/
theorem sadd_op_spec (c : cmdHashContainer) (k : Bytes) (ms : List Bytes)
    (hinv : ContainerInv c) :
    ∃ bk : Bool, ∃ dm : Nat,
      (__hash_sadd_cmd c k ms).ksize = c.ksize
      ∧ (__hash_sadd_cmd c k ms).msize = c.msize
      ∧ (__hash_sadd_cmd c k ms).keys = c.keys + (if bk then 1 else 0)
      ∧ containerKeyCount (__hash_sadd_cmd c k ms)
          = containerKeyCount c + (if bk then 1 else 0)
      ∧ (__hash_sadd_cmd c k ms).members = c.members + dm
      ∧ containerMemberCount (__hash_sadd_cmd c k ms)
          = containerMemberCount c + dm
      ∧ ContainerInv (__hash_sadd_cmd c k ms) := by
  obtain ⟨bk, hks, hms, hmem, hstr, hkeys, hckc, hcmc, hinv1, hbi, hci⟩ :=
    find_key_spec c k hinv
  obtain ⟨dm, tks, tms, tkeys, tckc, tmem, tcmc, tinv⟩ :=
    sadd_fold_spec ms (__find_key c k).1 (__find_key c k).2.1
      (__find_key c k).2.2 hinv1 hbi hci
  have hdef : __hash_sadd_cmd c k ms
      = ms.foldl (fun c2 m => containerAddMember c2 (__find_key c k).2.1
          (__find_key c k).2.2 m id) (__find_key c k).1 := rfl
  refine ⟨bk, dm, ?_, ?_, ?_, ?_, ?_, ?_, ?_⟩ <;> rw [hdef]
  · rw [tks, hks]
  · rw [tms, hms]
  · rw [tkeys, hkeys]
  · rw [tckc, hckc]
  · rw [tmem, hmem]
  · rw [tcmc, hcmc]
  · exact tinv

/-- The loop step on an unsupported command: the input counter advances,
the encoded command goes to the output buffer with a logical count of one,
the engine is untouched. -/
theorem processReply_unsupported (st : optimizerState) (r : redisReply)
    (h : __get_type r = cmdType.TYPE_UNSUPPORTED) :
    processReply st r
      = { cmd_count := st.cmd_count + 1,
          cmd_buffer := { buf := st.cmd_buffer.buf ++ encodeReplyBytes r,
                          cmd_count := st.cmd_buffer.cmd_count + 1 },
          cmd_hash := st.cmd_hash } := by
  simp [processReply, cmdHashAdd, h, cmdType.code, cmdBufferAddReply,
    cmdBufferAppend]

/-- The loop step on a numeric-merge command: the input counter advances,
the output buffer is untouched, the z container aggregates the command. -/
theorem processReply_zincrby (st : optimizerState) (r : redisReply)
    (h : __get_type r = cmdType.TYPE_ZINCRBY) :
    processReply st r
      = { cmd_count := st.cmd_count + 1,
          cmd_buffer := st.cmd_buffer,
          cmd_hash := { st.cmd_hash with
            z_cmds := __hash_zincrby_cmd st.cmd_hash.z_cmds (replyArg r 1)
              (strtod (replyArg r 2)) (replyArg r 3) } } := by
  simp [processReply, cmdHashAdd, h]

/-- The loop step on a set-merge command: the input counter advances, the
output buffer is untouched, the s container aggregates the command. -/
theorem processReply_sadd (st : optimizerState) (r : redisReply)
    (h : __get_type r = cmdType.TYPE_SADD) :
    processReply st r
      = { cmd_count := st.cmd_count + 1,
          cmd_buffer := st.cmd_buffer,
          cmd_hash := { st.cmd_hash with
            s_cmds := __hash_sadd_cmd st.cmd_hash.s_cmds (replyArg r 1)
              ((r.element.drop 2).map replyElem.bytes) } } := by
  simp [processReply, cmdHashAdd, h]

/-- Every command lands in exactly one of the three classification
buckets. -/
theorem classify_partition (cmds : List redisReply) :
    (cmds.filter (fun r => __get_type r == cmdType.TYPE_UNSUPPORTED)).length
    + (cmds.filter (fun r => __get_type r == cmdType.TYPE_ZINCRBY)).length
    + (cmds.filter (fun r => __get_type r == cmdType.TYPE_SADD)).length
    = cmds.length := by
  induction cmds with
  | nil => rfl
  | cons r t ih =>
      cases h : __get_type r <;>
        simp [List.filter_cons, h, List.length_cons] <;> omega

/-- The running invariant of the processing loop: well-formedness of both
containers, exact input and pass-through counters, counter and structural
count agreement for z members and s keys, and the per-command bound on how
much each structural count can grow. -/
theorem process_fold_counts (cmds : List redisReply) (st : optimizerState)
    (hz : ContainerInv st.cmd_hash.z_cmds)
    (hs : ContainerInv st.cmd_hash.s_cmds) :
    ContainerInv (cmds.foldl processReply st).cmd_hash.z_cmds
    ∧ ContainerInv (cmds.foldl processReply st).cmd_hash.s_cmds
    ∧ (cmds.foldl processReply st).cmd_count = st.cmd_count + cmds.length
    ∧ (cmds.foldl processReply st).cmd_buffer.cmd_count
        = st.cmd_buffer.cmd_count
          + (cmds.filter (fun r => __get_type r == cmdType.TYPE_UNSUPPORTED)).length
    ∧ (cmds.foldl processReply st).cmd_hash.z_cmds.members
          + containerMemberCount st.cmd_hash.z_cmds
        = containerMemberCount (cmds.foldl processReply st).cmd_hash.z_cmds
          + st.cmd_hash.z_cmds.members
    ∧ (cmds.foldl processReply st).cmd_hash.s_cmds.keys
          + containerKeyCount st.cmd_hash.s_cmds
        = containerKeyCount (cmds.foldl processReply st).cmd_hash.s_cmds
          + st.cmd_hash.s_cmds.keys
    ∧ containerMemberCount (cmds.foldl processReply st).cmd_hash.z_cmds
        ≤ containerMemberCount st.cmd_hash.z_cmds
          + (cmds.filter (fun r => __get_type r == cmdType.TYPE_ZINCRBY)).length
    ∧ containerKeyCount (cmds.foldl processReply st).cmd_hash.s_cmds
        ≤ containerKeyCount st.cmd_hash.s_cmds
          + (cmds.filter (fun r => __get_type r == cmdType.TYPE_SADD)).length := by
  induction cmds generalizing st with
  | nil =>
      refine ⟨hz, hs, by simp, by simp, by simp [Nat.add_comm],
        by simp [Nat.add_comm], by simp, by simp⟩
  | cons r t ih =>
      rw [List.foldl_cons]
      cases h : __get_type r with
      | TYPE_UNSUPPORTED =>
          rw [processReply_unsupported st r h]
          obtain ⟨i1, i2, i3, i4, i5, i6, i7, i8⟩ :=
            ih { cmd_count := st.cmd_count + 1,
                 cmd_buffer := { buf := st.cmd_buffer.buf ++ encodeReplyBytes r,
                                 cmd_count := st.cmd_buffer.cmd_count + 1 },
                 cmd_hash := st.cmd_hash } hz hs
          dsimp only at i1 i2 i3 i4 i5 i6 i7 i8
          have fU : (r :: t).filter (fun x => __get_type x == cmdType.TYPE_UNSUPPORTED)
              = r :: t.filter (fun x => __get_type x == cmdType.TYPE_UNSUPPORTED) := by
            simp [List.filter_cons, h]
          have fZ : (r :: t).filter (fun x => __get_type x == cmdType.TYPE_ZINCRBY)
              = t.filter (fun x => __get_type x == cmdType.TYPE_ZINCRBY) := by
            simp [List.filter_cons, h]
          have fS : (r :: t).filter (fun x => __get_type x == cmdType.TYPE_SADD)
              = t.filter (fun x => __get_type x == cmdType.TYPE_SADD) := by
            simp [List.filter_cons, h]
          refine ⟨i1, i2, ?_, ?_, i5, i6, ?_, ?_⟩
          · rw [i3, List.length_cons]
            omega
          · rw [i4, fU, List.length_cons]
            omega
          · rw [fZ]
            exact i7
          · rw [fS]
            exact i8
      | TYPE_ZINCRBY =>
          rw [processReply_zincrby st r h]
          dsimp only
          obtain ⟨za, zb, zk1, zk2, zk3, zk4, zk5, zk6, zk7⟩ :=
            zincrby_op_spec st.cmd_hash.z_cmds (replyArg r 1)
              (strtod (replyArg r 2)) (replyArg r 3) hz
          obtain ⟨i1, i2, i3, i4, i5, i6, i7, i8⟩ :=
            ih { cmd_count := st.cmd_count + 1,
                 cmd_buffer := st.cmd_buffer,
                 cmd_hash := { st.cmd_hash with
                   z_cmds := __hash_zincrby_cmd st.cmd_hash.z_cmds (replyArg r 1)
                     (strtod (replyArg r 2)) (replyArg r 3) } } zk7 hs
          dsimp only at i1 i2 i3 i4 i5 i6 i7 i8
          have fU : (r :: t).filter (fun x => __get_type x == cmdType.TYPE_UNSUPPORTED)
              = t.filter (fun x => __get_type x == cmdType.TYPE_UNSUPPORTED) := by
            simp [List.filter_cons, h]
          have fZ : (r :: t).filter (fun x => __get_type x == cmdType.TYPE_ZINCRBY)
              = r :: t.filter (fun x => __get_type x == cmdType.TYPE_ZINCRBY) := by
            simp [List.filter_cons, h]
          have fS : (r :: t).filter (fun x => __get_type x == cmdType.TYPE_SADD)
              = t.filter (fun x => __get_type x == cmdType.TYPE_SADD) := by
            simp [List.filter_cons, h]
          have hble : (if zb = true then (1 : Nat) else 0) ≤ 1 := by
            cases zb <;> simp
          refine ⟨i1, i2, ?_, ?_, ?_, i6, ?_, ?_⟩
          · rw [i3, List.length_cons]
            omega
          · rw [i4, fU]
          · omega
          · rw [fZ, List.length_cons]
            omega
          · rw [fS]
            exact i8
      | TYPE_SADD =>
          rw [processReply_sadd st r h]
          dsimp only
          obtain ⟨sa, sd, sk1, sk2, sk3, sk4, sk5, sk6, sk7⟩ :=
            sadd_op_spec st.cmd_hash.s_cmds (replyArg r 1)
              ((r.element.drop 2).map replyElem.bytes) hs
          obtain ⟨i1, i2, i3, i4, i5, i6, i7, i8⟩ :=
            ih { cmd_count := st.cmd_count + 1,
                 cmd_buffer := st.cmd_buffer,
                 cmd_hash := { st.cmd_hash with
                   s_cmds := __hash_sadd_cmd st.cmd_hash.s_cmds (replyArg r 1)
                     ((r.element.drop 2).map replyElem.bytes) } } hz sk7
          dsimp only at i1 i2 i3 i4 i5 i6 i7 i8
          have fU : (r :: t).filter (fun x => __get_type x == cmdType.TYPE_UNSUPPORTED)
              = t.filter (fun x => __get_type x == cmdType.TYPE_UNSUPPORTED) := by
            simp [List.filter_cons, h]
          have fZ : (r :: t).filter (fun x => __get_type x == cmdType.TYPE_ZINCRBY)
              = t.filter (fun x => __get_type x == cmdType.TYPE_ZINCRBY) := by
            simp [List.filter_cons, h]
          have fS : (r :: t).filter (fun x => __get_type x == cmdType.TYPE_SADD)
              = r :: t.filter (fun x => __get_type x == cmdType.TYPE_SADD) := by
            simp [List.filter_cons, h]
          have hble : (if sa = true then (1 : Nat) else 0) ≤ 1 := by
            cases sa <;> simp
          refine ⟨i1, i2, ?_, ?_, i5, ?_, ?_, ?_⟩
          · rw [i3, List.length_cons]
            omega
          · rw [i4, fU]
          · omega
          · rw [fZ]
            exact i7
          · rw [fS, List.length_cons]
            omega

/-- C6: after a run, the exposed total output command count equals the
number of pass-through commands plus the number of member entries held by
the numeric family plus the number of key entries held by the set family;
the exposed total input command count equals the number of commands seen;
and the output count never exceeds the input count. -/
theorem counts_contract (ksize msize : Nat) (hk : 0 < ksize)
    (hm : 0 < msize) (cmds : List redisReply) :
    (runPipeline ksize msize cmds).cmd_buffer.cmd_count
      = (cmds.filter (fun r => __get_type r == cmdType.TYPE_UNSUPPORTED)).length
        + containerMemberCount (runPipeline ksize msize cmds).cmd_hash.z_cmds
        + containerKeyCount (runPipeline ksize msize cmds).cmd_hash.s_cmds
    ∧ (runPipeline ksize msize cmds).cmd_count = cmds.length
    ∧ (runPipeline ksize msize cmds).cmd_buffer.cmd_count
        ≤ (runPipeline ksize msize cmds).cmd_count := by
  have hinv0 : ContainerInv (containerInit ksize msize) := by
    refine ⟨by simp [containerInit], hk, hm, ?_⟩
    intro ke hke b hb
    simp [containerInit, flatten_replicate_nil] at hke
  obtain ⟨i1, i2, i3, i4, i5, i6, i7, i8⟩ := process_fold_counts cmds
    { cmd_count := 0, cmd_buffer := { buf := [], cmd_count := 0 },
      cmd_hash := cmdHashInit ksize msize } hinv0 hinv0
  have hckc0 : containerKeyCount (containerInit ksize msize) = 0 := by
    simp [containerKeyCount, containerInit, List.map_replicate,
      List.sum_replicate]
  have hcmc0 : containerMemberCount (containerInit ksize msize) = 0 := by
    simp [containerMemberCount, containerInit, List.map_replicate,
      List.sum_replicate]
  have hpb : processBufferFile ksize msize cmds
      = cmds.foldl processReply
          { cmd_count := 0, cmd_buffer := { buf := [], cmd_count := 0 },
            cmd_hash := cmdHashInit ksize msize } := rfl
  have hb : (runPipeline ksize msize cmds).cmd_buffer.cmd_count
      = (processBufferFile ksize msize cmds).cmd_buffer.cmd_count
        + ((processBufferFile ksize msize cmds).cmd_hash.z_cmds.members
           + (processBufferFile ksize msize cmds).cmd_hash.s_cmds.keys) := rfl
  have hh : (runPipeline ksize msize cmds).cmd_hash
      = (processBufferFile ksize msize cmds).cmd_hash := rfl
  have hc : (runPipeline ksize msize cmds).cmd_count
      = (processBufferFile ksize msize cmds).cmd_count := rfl
  have hpart := classify_partition cmds
  dsimp only [cmdHashInit, containerInit] at i3 i4 i5 i6 i7 i8
  dsimp only [containerInit] at hckc0 hcmc0
  rw [hb, hc, hh, hpb]
  dsimp only [cmdHashInit, containerInit]
  omega

/-- Witness for C6 on the mixed scenario: SET x 1, ZINCRBY z 1 m,
SADD s a, ZINCRBY z 2 m. -/
theorem counts_contract_witness :
    (runPipeline 3 2 [setReply, zMixed1, sMixed, zMixed2]).cmd_buffer.cmd_count
      = ([setReply, zMixed1, sMixed, zMixed2].filter
          (fun r => __get_type r == cmdType.TYPE_UNSUPPORTED)).length
        + containerMemberCount
            (runPipeline 3 2 [setReply, zMixed1, sMixed, zMixed2]).cmd_hash.z_cmds
        + containerKeyCount
            (runPipeline 3 2 [setReply, zMixed1, sMixed, zMixed2]).cmd_hash.s_cmds
    ∧ (runPipeline 3 2 [setReply, zMixed1, sMixed, zMixed2]).cmd_count
        = [setReply, zMixed1, sMixed, zMixed2].length
    ∧ (runPipeline 3 2 [setReply, zMixed1, sMixed, zMixed2]).cmd_buffer.cmd_count
        ≤ (runPipeline 3 2 [setReply, zMixed1, sMixed, zMixed2]).cmd_count :=
  counts_contract 3 2 (by decide) (by decide) [setReply, zMixed1, sMixed, zMixed2]

end BufferOptimize
